import Mathlib

/-!
Shallow embedding of `src/MCM.py` (Markov-chain Mixture distribution model):
`MCMFit`, `MCMForecast`, `MCMRnd`.  NumPy float arrays are modelled as lists
of rationals (matrices as `Matrix (Fin n) (Fin n) ℚ`); NumPy failures (raised
exceptions such as `AssertionError`/`IndexError`, and the NaN-poisoned
integer cast that ends in an out-of-bounds index) are modelled by
`Option`/`Except` results being `none`/`.error`.  Random draws are modelled
by an explicit tape: `np.random.uniform(0, 1, count)` becomes an input list
of unit variates, and `np.random.uniform(0, binWidth, count)` is
`binWidth * u` with `u` a unit variate, which is exactly NumPy's
`low + (high - low) * u` formula.
-/

namespace MCM

/-- `np.min(data)` for the nonempty array `x :: xs`. -/
def listMin (x : ℚ) (xs : List ℚ) : ℚ := xs.foldl min x

/-- `np.max(data)` for the nonempty array `x :: xs`. -/
def listMax (x : ℚ) (xs : List ℚ) : ℚ := xs.foldl max x

/-- The state assigned to one observation `v` in `MCMFit`:
`state = np.floor((data-a) / binWidth)` followed by the top clamp
`state[state > (n-1)] = n - 1` and the cast to an integer index.
For observations of the fitted sequence (`v ≥ a`, `w > 0`) the floor is
nonnegative, so `Int.toNat` is exact. -/
def stateOf (a w : ℚ) (n : ℕ) (v : ℚ) : ℕ :=
  min (((v - a) / w).floor.toNat) (n - 1)

/-- The consecutive pairs `(data[i-1], data[i])` visited by the counting loop
`for i in range(1, len(data))`. -/
def transPairs (data : List ℚ) : List (ℚ × ℚ) := data.zip data.tail

/-- The raw transition-count matrix `p` built by
`p[state[i-1], state[i]] += 1` over all consecutive pairs. -/
def countMatrix (data : List ℚ) (a w : ℚ) (n : ℕ) : Matrix (Fin n) (Fin n) ℚ :=
  Matrix.of fun i j =>
    (((transPairs data).countP fun q =>
      decide (stateOf a w n q.1 = i.val ∧ stateOf a w n q.2 = j.val) : ℕ) : ℚ)

/-- Row normalization: `rowSums = p.sum(1); rowSums[rowSums == 0] = 1.0;
p = p / rowSums[:, np.newaxis]`. -/
def normalizeRows {n : ℕ} (m : Matrix (Fin n) (Fin n) ℚ) : Matrix (Fin n) (Fin n) ℚ :=
  Matrix.of fun i j => m i j / (if (∑ k, m i k) = 0 then 1 else ∑ k, m i k)

/-- `MCMFit(data, n, timeSteps)` from `src/MCM.py`.

* `data = []`: `np.min` on an empty array raises, modelled as `none`.
* `binWidth = 0` (degenerate range `a == b`, or `n = 0`) with at least two
  observations: `(data-a)/binWidth` is NaN (or, when `n = 0`, the clamp
  turns every state into `-1` while `p` is 0×0), and the counting loop's
  first access `p[state[0], state[1]]` raises `IndexError`; modelled `none`.
* `binWidth = 0` with a single observation: the poisoned states are never
  used because the loop body never runs, and the all-zero count matrix flows
  through normalization and the power unharmed.
* otherwise: count, normalize, and raise to the power `timeSteps`
  (`np.linalg.matrix_power` is the ordinary matrix power). -/
def MCMFit (data : List ℚ) (n : ℕ) (timeSteps : ℕ) : Option (Matrix (Fin n) (Fin n) ℚ) :=
  match data with
  | [] => none
  | x :: xs =>
    let a := listMin x xs
    let b := listMax x xs
    let w := (b - a) / (n : ℚ)
    if w = 0 ∧ xs ≠ [] then none
    else some ((normalizeRows (countMatrix (x :: xs) a w n)) ^ timeSteps)

/-- The ways `MCMForecast` fails: the two `assert` statements, and the
`np.where(...)[0][-1]` access on an empty index array. -/
inductive MCMError where
  | invalidRange
  | outOfRange
  | indexError
deriving DecidableEq

/-- `binStarts = np.arange(n) * binWidth + minValue`. -/
def binStartsList (n : ℕ) (minValue binWidth : ℚ) : List ℚ :=
  (List.range n).map fun (i : ℕ) => (i : ℚ) * binWidth + minValue

/-- `np.where(obsPoint >= starts)[0][-1]`: the index of the last entry of
`starts` that does not exceed `obsPoint`; `none` when no entry qualifies
(then the `[-1]` access raises `IndexError`). -/
def lastBinIdx (obsPoint : ℚ) : List ℚ → Option ℕ
  | [] => none
  | c :: cs =>
    match lastBinIdx obsPoint cs with
    | some k => some (k + 1)
    | none => if obsPoint ≥ c then some 0 else none

/-- `MCMForecast(p, minValue, maxValue, obsPoint)` from `src/MCM.py`:
two asserts, then the bin starts and the selected row `p[obsBin, :]`. -/
def MCMForecast (n : ℕ) (p : Matrix (Fin n) (Fin n) ℚ)
    (minValue maxValue obsPoint : ℚ) :
    Except MCMError (List ℚ × List ℚ) :=
  if ¬ minValue < maxValue then .error .invalidRange
  else if ¬ obsPoint ≥ minValue then .error .outOfRange
  else
    let binWidth := (maxValue - minValue) / (n : ℚ)
    let starts := binStartsList n minValue binWidth
    match lastBinIdx obsPoint starts with
    | none => .error .indexError
    | some i =>
      if h : i < n then .ok (starts, (List.finRange n).map fun j => p ⟨i, h⟩ j)
      else .error .indexError

/-- `probsCDF = np.cumsum(transProbs)`: the list of partial sums. -/
def cdfList (tp : List ℚ) : List ℚ :=
  match tp with
  | [] => []
  | t :: ts => t :: (cdfList ts).map (t + ·)

/-- `np.where(u <= cdf)[0][0]`: the index of the first entry of `cdf` that
`u` does not exceed; `none` when no entry qualifies (then the `[0]` access
raises `IndexError`). -/
def firstIdxLE (u : ℚ) : List ℚ → Option ℕ
  | [] => none
  | c :: cs => if u ≤ c then some 0 else (firstIdxLE u cs).map (· + 1)

/-- One iteration of the sampling loop in `MCMRnd`:
`binIndex = np.where(u <= probsCDF)[0][0]`, then
`binStarts[binIndex] + binWidth * j` where `j` is the unit variate behind
`np.random.uniform(0, binWidth)`. -/
def drawSample (binStarts cdf : List ℚ) (binWidth u j : ℚ) : Option ℚ :=
  match firstIdxLE u cdf with
  | none => none
  | some k => (binStarts[k]?).map fun b => b + binWidth * j

/-- The sampling loop `for i in range(count)` of `MCMRnd`, over the zipped
random tape; a failed draw aborts the call (the exception propagates). -/
def sampleLoop (binStarts cdf : List ℚ) (binWidth : ℚ) : List (ℚ × ℚ) → Option (List ℚ)
  | [] => some []
  | q :: rest =>
    match drawSample binStarts cdf binWidth q.1 q.2, sampleLoop binStarts cdf binWidth rest with
    | some s, some ss => some (s :: ss)
    | _, _ => none

/-- `MCMRnd(binStarts, transProbs, count)` from `src/MCM.py`, with the random
tape made explicit: `us` are the `np.random.uniform(0,1,count)` variates and
`js` the unit variates behind `np.random.uniform(0,binWidth,count)`
(`count = us.length = js.length`).
`binWidth = np.diff(binStarts)[0]` raises `IndexError` (modelled `none`) when
`binStarts` has fewer than two entries, before any sample is drawn. -/
def MCMRnd (binStarts transProbs us js : List ℚ) : Option (List ℚ) :=
  match binStarts with
  | b0 :: b1 :: _ =>
    sampleLoop binStarts (cdfList transProbs) (b1 - b0) (us.zip js)
  | _ => none



/-! ### Basic facts about the embedded helpers -/

lemma eq_some_of_isSome_getD {α : Type} (o : Option α) (d v : α)
    (h1 : o.isSome = true) (h2 : o.getD d = v) : o = some v := by
  cases o with
  | none => simp at h1
  | some x => simpa using h2

lemma listMin_le (xs : List ℚ) (x : ℚ) :
    listMin x xs ≤ x ∧ ∀ v ∈ xs, listMin x xs ≤ v := by
  induction xs generalizing x with
  | nil => simp [listMin]
  | cons a l ih =>
    have h := ih (min x a)
    refine ⟨le_trans h.1 (min_le_left _ _), ?_⟩
    intro v hv
    rcases List.mem_cons.mp hv with rfl | hv
    · exact le_trans h.1 (min_le_right _ _)
    · exact h.2 v hv

lemma le_listMax (xs : List ℚ) (x : ℚ) :
    x ≤ listMax x xs ∧ ∀ v ∈ xs, v ≤ listMax x xs := by
  induction xs generalizing x with
  | nil => simp [listMax]
  | cons a l ih =>
    have h := ih (max x a)
    refine ⟨le_trans (le_max_left _ _) h.1, ?_⟩
    intro v hv
    rcases List.mem_cons.mp hv with rfl | hv
    · exact le_trans (le_max_right _ _) h.1
    · exact h.2 v hv

lemma lastBinIdx_eq_none (obs : ℚ) (l : List ℚ) :
    lastBinIdx obs l = none ↔ ∀ c ∈ l, ¬ obs ≥ c := by
  induction l with
  | nil => simp [lastBinIdx]
  | cons c cs ih =>
    rw [lastBinIdx]
    cases h : lastBinIdx obs cs with
    | some k =>
      simp only [List.mem_cons, ge_iff_le]
      constructor
      · intro hfalse; exact absurd hfalse (by simp)
      · intro hall
        have : ∀ d ∈ cs, ¬ obs ≥ d := fun d hd => hall d (Or.inr hd)
        rw [← ih] at this
        rw [this] at h
        exact absurd h (by simp)
    | none =>
      have hcs := ih.mp h
      by_cases hc : obs ≥ c
      · simp only [if_pos hc]
        constructor
        · intro hfalse; exact absurd hfalse (by simp)
        · intro hall; exact absurd hc (hall c (List.mem_cons_self c cs))
      · simp only [if_neg hc]
        constructor
        · intro _ d hd
          rcases List.mem_cons.mp hd with rfl | hd
          · exact hc
          · exact hcs d hd
        · intro _; trivial

lemma lastBinIdx_spec (obs : ℚ) (l : List ℚ) (k : ℕ)
    (h : lastBinIdx obs l = some k) :
    (∃ c, l[k]? = some c ∧ obs ≥ c) ∧
    ∀ m c, l[m]? = some c → obs ≥ c → m ≤ k := by
  induction l generalizing k with
  | nil => simp [lastBinIdx] at h
  | cons c cs ih =>
    rw [lastBinIdx] at h
    cases hcs : lastBinIdx obs cs with
    | some k' =>
      rw [hcs] at h
      injection h with h
      subst h
      obtain ⟨⟨c', hc', ho'⟩, hmax⟩ := ih k' hcs
      refine ⟨⟨c', by simpa using hc', ho'⟩, ?_⟩
      intro m d hm hd
      cases m with
      | zero => exact Nat.zero_le _
      | succ m' =>
        rw [List.getElem?_cons_succ] at hm
        exact Nat.succ_le_succ (hmax m' d hm hd)
    | none =>
      rw [hcs] at h
      by_cases hc : obs ≥ c
      · rw [if_pos hc] at h
        injection h with h
        subst h
        refine ⟨⟨c, by simp, hc⟩, ?_⟩
        intro m d hm hd
        cases m with
        | zero => exact le_refl _
        | succ m' =>
          rw [List.getElem?_cons_succ] at hm
          have := (lastBinIdx_eq_none obs cs).mp hcs
          exact absurd hd (this d (List.getElem?_mem hm))
      · rw [if_neg hc] at h
        exact absurd h (by simp)

lemma firstIdxLE_eq_none (u : ℚ) (l : List ℚ) :
    firstIdxLE u l = none ↔ ∀ c ∈ l, ¬ u ≤ c := by
  induction l with
  | nil => simp [firstIdxLE]
  | cons c cs ih =>
    rw [firstIdxLE]
    by_cases hc : u ≤ c
    · simp only [if_pos hc]
      constructor
      · intro hfalse; exact absurd hfalse (by simp)
      · intro hall; exact absurd hc (hall c (List.mem_cons_self c cs))
    · simp only [if_neg hc]
      constructor
      · intro hmap d hd
        rcases List.mem_cons.mp hd with rfl | hd
        · exact hc
        · exact ih.mp (by simpa using hmap) d hd
      · intro hall
        have : firstIdxLE u cs = none := ih.mpr fun d hd => hall d (List.mem_cons_of_mem c hd)
        simp [this]

lemma firstIdxLE_spec (u : ℚ) (l : List ℚ) (k : ℕ)
    (h : firstIdxLE u l = some k) :
    (∃ c, l[k]? = some c ∧ u ≤ c) ∧
    ∀ m c, m < k → l[m]? = some c → ¬ u ≤ c := by
  induction l generalizing k with
  | nil => simp [firstIdxLE] at h
  | cons c cs ih =>
    rw [firstIdxLE] at h
    by_cases hc : u ≤ c
    · rw [if_pos hc] at h
      injection h with h
      subst h
      exact ⟨⟨c, by simp, hc⟩, fun m d hm => absurd hm (Nat.not_lt_zero m)⟩
    · rw [if_neg hc] at h
      cases hcs : firstIdxLE u cs with
      | none => rw [hcs] at h; exact absurd h (by simp)
      | some k' =>
        rw [hcs] at h
        injection h with h
        subst h
        obtain ⟨⟨c', hc', hu'⟩, hmin⟩ := ih k' hcs
        refine ⟨⟨c', by simpa using hc', hu'⟩, ?_⟩
        intro m d hm hd
        cases m with
        | zero => simp at hd; subst hd; exact hc
        | succ m' =>
          rw [List.getElem?_cons_succ] at hd
          exact hmin m' d (Nat.lt_of_succ_lt_succ hm) hd

lemma cdfList_length (tp : List ℚ) : (cdfList tp).length = tp.length := by
  induction tp with
  | nil => rfl
  | cons t ts ih => simp [cdfList, ih]

lemma cdfList_last (tp : List ℚ) (h : tp ≠ []) :
    (cdfList tp)[tp.length - 1]? = some tp.sum := by
  induction tp with
  | nil => exact absurd rfl h
  | cons t ts ih =>
    cases hts : ts with
    | nil => simp [cdfList]
    | cons a l =>
      rw [← hts]
      have hne : ts ≠ [] := by simp [hts]
      have hlen : 0 < ts.length := List.length_pos.mpr hne
      have hstep : (t :: ts).length - 1 = (ts.length - 1) + 1 := by
        rw [List.length_cons]; omega
      have hunfold : cdfList (t :: ts) = t :: (cdfList ts).map (t + ·) := rfl
      rw [hstep, hunfold, List.getElem?_cons_succ, List.getElem?_map, ih hne]
      simp [List.sum_cons]

lemma binStartsList_length (n : ℕ) (minV w : ℚ) :
    (binStartsList n minV w).length = n := by
  rw [binStartsList, List.length_map, List.length_range]

lemma binStartsList_getElem? (n : ℕ) (minV w : ℚ) (k : ℕ) (hk : k < n) :
    (binStartsList n minV w)[k]? = some ((k : ℚ) * w + minV) := by
  rw [binStartsList, List.getElem?_map, List.getElem?_range hk]
  rfl



lemma finRange_map_sum (n : ℕ) (f : Fin n → ℚ) :
    ((List.finRange n).map f).sum = ∑ k, f k := by
  rw [Fin.sum_univ_def]

lemma mcmForecast_ok (n : ℕ) (p : Matrix (Fin n) (Fin n) ℚ) (minV maxV obs : ℚ)
    (hn : 1 ≤ n) (hr : minV < maxV) (ho : minV ≤ obs) :
    ∃ j : Fin n,
      MCMForecast n p minV maxV obs =
        .ok (binStartsList n minV ((maxV - minV) / (n : ℚ)),
             (List.finRange n).map fun k => p j k) ∧
      lastBinIdx obs (binStartsList n minV ((maxV - minV) / (n : ℚ))) = some j.val := by
  set w := (maxV - minV) / (n : ℚ) with hw
  have h0 : (binStartsList n minV w)[0]? = some ((0 : ℚ) * w + minV) := by
    simpa using binStartsList_getElem? n minV w 0 (by omega)
  have hmem : ((0 : ℚ) * w + minV) ∈ binStartsList n minV w :=
    List.getElem?_mem h0
  have hq : obs ≥ (0 : ℚ) * w + minV := by simpa using ho
  have hne : lastBinIdx obs (binStartsList n minV w) ≠ none := by
    intro hnone
    exact (lastBinIdx_eq_none obs _).mp hnone _ hmem hq
  obtain ⟨k, hk⟩ := Option.ne_none_iff_exists'.mp hne
  obtain ⟨⟨c, hc, _⟩, _⟩ := lastBinIdx_spec obs _ k hk
  have hklt : k < n := by
    have := (List.getElem?_eq_some.mp hc).1
    rwa [binStartsList_length] at this
  refine ⟨⟨k, hklt⟩, ?_, hk⟩
  rw [MCMForecast]
  rw [if_neg (by simpa using hr)]
  rw [if_neg (by simpa using ho)]
  simp only [← hw, hk]
  rw [dif_pos hklt]

lemma mcmForecast_ok_inv (n : ℕ) (p : Matrix (Fin n) (Fin n) ℚ)
    (minV maxV obs : ℚ) (bs tp : List ℚ)
    (h : MCMForecast n p minV maxV obs = .ok (bs, tp)) :
    bs = binStartsList n minV ((maxV - minV) / (n : ℚ)) ∧
    ∃ j : Fin n, tp = (List.finRange n).map fun k => p j k := by
  rw [MCMForecast] at h
  by_cases h1 : minV < maxV
  · rw [if_neg (by simpa using h1)] at h
    by_cases h2 : obs ≥ minV
    · rw [if_neg (by simpa using h2)] at h
      dsimp only at h
      cases hlast : lastBinIdx obs (binStartsList n minV ((maxV - minV) / (n : ℚ))) with
      | none => rw [hlast] at h; exact absurd h (by simp)
      | some k =>
        rw [hlast] at h
        dsimp only at h
        by_cases hk : k < n
        · rw [dif_pos hk] at h
          injection h with h
          injection h with hbs htp
          exact ⟨hbs.symm, ⟨⟨k, hk⟩, htp.symm⟩⟩
        · rw [dif_neg hk] at h
          exact absurd h (by simp)
    · rw [if_pos (by simpa using h2)] at h
      exact absurd h (by simp)
  · rw [if_pos (by simpa using h1)] at h
    exact absurd h (by simp)

/-- C5: under the preconditions (`n ≥ 1`, `minValue < maxValue`,
`obsPoint ≥ minValue`), `MCMForecast` selects the bin with the last (highest)
index `j` such that `obsPoint ≥ binStarts[j]` and returns
`(binStarts, p[j, :])`; an `obsPoint` exactly equal to a bin lower edge
selects that edge's bin, and an `obsPoint` at or above `maxValue` selects the
last bin, index `n - 1`. -/
theorem mcmForecast_bin_selection (n : ℕ) (p : Matrix (Fin n) (Fin n) ℚ)
    (minV maxV obs : ℚ) (hn : 1 ≤ n) (hr : minV < maxV) (ho : minV ≤ obs) :
    ∃ j : Fin n,
      MCMForecast n p minV maxV obs =
        .ok (binStartsList n minV ((maxV - minV) / (n : ℚ)),
             (List.finRange n).map fun k => p j k) ∧
      obs ≥ (j.val : ℚ) * ((maxV - minV) / (n : ℚ)) + minV ∧
      (∀ m : ℕ, m < n → obs ≥ (m : ℚ) * ((maxV - minV) / (n : ℚ)) + minV → m ≤ j.val) ∧
      (∀ m : ℕ, m < n → obs = (m : ℚ) * ((maxV - minV) / (n : ℚ)) + minV → j.val = m) ∧
      (maxV ≤ obs → j.val = n - 1) := by
  obtain ⟨j, hok, hlast⟩ := mcmForecast_ok n p minV maxV obs hn hr ho
  set w := (maxV - minV) / (n : ℚ) with hw
  have hwpos : 0 < w := by
    rw [hw]
    apply div_pos (by linarith)
    exact_mod_cast Nat.lt_of_lt_of_le Nat.zero_lt_one hn
  obtain ⟨⟨c, hc, hoc⟩, hmax⟩ := lastBinIdx_spec obs _ j.val hlast
  have hjq : obs ≥ (j.val : ℚ) * w + minV := by
    rw [binStartsList_getElem? n minV w j.val j.isLt] at hc
    injection hc with hc
    rwa [← hc] at hoc
  have hup : ∀ m : ℕ, m < n → obs ≥ (m : ℚ) * w + minV → m ≤ j.val := by
    intro m hm hq
    exact hmax m _ (binStartsList_getElem? n minV w m hm) hq
  refine ⟨j, hok, hjq, hup, ?_, ?_⟩
  · intro m hm hobs
    have h1 : m ≤ j.val := hup m hm (le_of_eq hobs.symm)
    have h2 : (j.val : ℚ) * w ≤ (m : ℚ) * w := by
      have := hjq
      rw [hobs] at this
      linarith
    have h3 : (j.val : ℚ) ≤ (m : ℚ) := le_of_mul_le_mul_right (by linarith) hwpos
    have h4 : j.val ≤ m := by exact_mod_cast h3
    omega
  · intro hobs
    have hn0 : (0 : ℚ) < (n : ℚ) := by exact_mod_cast Nat.lt_of_lt_of_le Nat.zero_lt_one hn
    have hq : obs ≥ ((n - 1 : ℕ) : ℚ) * w + minV := by
      have hnw : (n : ℚ) * w = maxV - minV := by
        rw [hw]
        field_simp
      have hstep : ((n - 1 : ℕ) : ℚ) * w + minV = maxV - w := by
        rw [Nat.cast_sub hn]
        push_cast
        linear_combination hnw
      rw [hstep]
      linarith
    have h1 : n - 1 ≤ j.val := hup (n - 1) (by omega) hq
    have h2 : j.val ≤ n - 1 := by have := j.isLt; omega
    omega



/-- C6: `MCMForecast` fails with the invalid-range error whenever
`minValue ≥ maxValue`, fails with the out-of-range error whenever
`minValue < maxValue` but `obsPoint < minValue`, and returns normally when
both checks pass. -/
theorem mcmForecast_error_handling (n : ℕ) (p : Matrix (Fin n) (Fin n) ℚ)
    (minV maxV obs : ℚ) (hn : 1 ≤ n) :
    (maxV ≤ minV → MCMForecast n p minV maxV obs = .error .invalidRange) ∧
    (minV < maxV → obs < minV → MCMForecast n p minV maxV obs = .error .outOfRange) ∧
    (minV < maxV → minV ≤ obs → ∃ r, MCMForecast n p minV maxV obs = .ok r) := by
  refine ⟨?_, ?_, ?_⟩
  · intro h
    rw [MCMForecast, if_pos (by simpa using not_lt.mpr h)]
  · intro h1 h2
    rw [MCMForecast, if_neg (by simpa using h1), if_pos (by simpa using not_le.mpr h2)]
  · intro h1 h2
    obtain ⟨j, hok, _⟩ := mcmForecast_ok n p minV maxV obs hn h1 h2
    exact ⟨_, hok⟩

/-- Witness for C6 at the spec's own error example
`forecast(P, 0.5, 0.5, 0.5)` (equal bounds), with `n = 1`, `P = [[1]]`. -/
theorem mcmForecast_error_handling_witness :
    ((1 : ℚ)/2 ≤ 1/2 → MCMForecast 1 !![(1 : ℚ)] (1/2) (1/2) (1/2) = .error .invalidRange) ∧
    ((1 : ℚ)/2 < 1/2 → (1 : ℚ)/2 < 1/2 → MCMForecast 1 !![(1 : ℚ)] (1/2) (1/2) (1/2) = .error .outOfRange) ∧
    ((1 : ℚ)/2 < 1/2 → (1 : ℚ)/2 ≤ 1/2 → ∃ r, MCMForecast 1 !![(1 : ℚ)] (1/2) (1/2) (1/2) = .ok r) :=
  mcmForecast_error_handling 1 !![(1 : ℚ)] (1/2) (1/2) (1/2) (by norm_num)

/-- Witness for C5 at `n = 2`, `P = [[0,1],[1/3,2/3]]`, range `[0,1]`,
`obsPoint = 1/2`: the observation lies exactly on bin 1's lower edge and the
selected bin is bin 1, not bin 0. -/
theorem mcmForecast_bin_selection_witness :
    ∃ j : Fin 2,
      MCMForecast 2 !![0, 1; (1 : ℚ)/3, 2/3] 0 1 (1/2) =
        .ok (binStartsList 2 0 ((1 - 0) / (2 : ℚ)),
             (List.finRange 2).map fun k => !![0, 1; (1 : ℚ)/3, 2/3] j k) ∧
      j.val = 1 := by
  obtain ⟨j, hok, hq, hup, heq, htop⟩ :=
    mcmForecast_bin_selection 2 !![0, 1; (1 : ℚ)/3, 2/3] 0 1 (1/2)
      (by norm_num) (by norm_num) (by norm_num)
  refine ⟨j, hok, ?_⟩
  exact heq 1 (by norm_num) (by norm_num)

unseal Rat.mul Rat.inv Rat.add Rat.sub in
/-- C10: for a `binStarts` array of length 1 and any tape, `MCMRnd` fails
before drawing any sample (`np.diff(binStarts)` is empty, so its first
element does not exist), while `MCMFit` and `MCMForecast` both accept
`n = 1`. -/
theorem mcmRnd_single_bin_fails (b : ℚ) (tp us js : List ℚ)
    (h : 1 ≤ us.length) :
    MCMRnd [b] tp us js = none ∧
    (MCMFit [0, 1] 1 1).isSome = true ∧
    (MCMForecast 1 !![(1 : ℚ)] 0 1 0).toOption.isSome = true := by
  refine ⟨rfl, ?_, ?_⟩
  · decide
  · decide

unseal Rat.mul Rat.inv Rat.add Rat.sub in
/-- Witness for C10 at `binStarts = [0]`, `transProbs = [1]`, one draw. -/
theorem mcmRnd_single_bin_fails_witness :
    1 ≤ ([(1 : ℚ)/2] : List ℚ).length ∧
    (MCMRnd [0] [1] [1/2] [1/2] = none ∧
     (MCMFit [0, 1] 1 1).isSome = true ∧
     (MCMForecast 1 !![(1 : ℚ)] 0 1 0).toOption.isSome = true) :=
  ⟨by decide, mcmRnd_single_bin_fails 0 [1] [1/2] [1/2] (by decide)⟩



lemma forall₂_mem_right {α β : Type} {R : α → β → Prop} {l₁ : List α} {l₂ : List β}
    (h : List.Forall₂ R l₁ l₂) {b : β} (hb : b ∈ l₂) : ∃ a ∈ l₁, R a b := by
  induction h with
  | nil => simp at hb
  | cons hr _ ih =>
    rcases List.mem_cons.mp hb with rfl | hb
    · exact ⟨_, List.mem_cons_self _ _, hr⟩
    · obtain ⟨a, ha, har⟩ := ih hb
      exact ⟨a, List.mem_cons_of_mem _ ha, har⟩

lemma sampleLoop_some (bs cdf : List ℚ) (w : ℚ) (pairs : List (ℚ × ℚ))
    (h : ∀ q ∈ pairs, ∃ s, drawSample bs cdf w q.1 q.2 = some s) :
    ∃ ss, sampleLoop bs cdf w pairs = some ss ∧
      List.Forall₂ (fun q s => drawSample bs cdf w q.1 q.2 = some s) pairs ss := by
  induction pairs with
  | nil => exact ⟨[], rfl, List.Forall₂.nil⟩
  | cons q rest ih =>
    obtain ⟨s, hs⟩ := h q (List.mem_cons_self _ _)
    obtain ⟨ss, hss, hall⟩ := ih fun q' hq' => h q' (List.mem_cons_of_mem _ hq')
    refine ⟨s :: ss, ?_, List.Forall₂.cons hs hall⟩
    rw [sampleLoop, hs, hss]

lemma binStartsList_shape (m : ℕ) (b0 w : ℚ) :
    ∃ rest, binStartsList (m + 2) b0 w =
      (((0 : ℕ) : ℚ) * w + b0) :: ((((1 : ℕ) : ℚ) * w + b0)) :: rest := by
  refine ⟨(List.range m).map fun (i : ℕ) => ((i.succ.succ : ℕ) : ℚ) * w + b0, ?_⟩
  rw [binStartsList, List.range_succ_eq_map, List.range_succ_eq_map]
  simp [List.map_map, Function.comp]

lemma mcmRnd_eq_sampleLoop (n : ℕ) (hn : 2 ≤ n) (b0 w : ℚ) (tp us js : List ℚ) :
    MCMRnd (binStartsList n b0 w) tp us js =
      sampleLoop (binStartsList n b0 w) (cdfList tp) w (us.zip js) := by
  obtain ⟨m, rfl⟩ : ∃ m, n = m + 2 := ⟨n - 2, by omega⟩
  obtain ⟨rest, hshape⟩ := binStartsList_shape m b0 w
  rw [hshape]
  show sampleLoop _ (cdfList tp)
      ((((1 : ℕ) : ℚ) * w + b0) - (((0 : ℕ) : ℚ) * w + b0)) (us.zip js) = _
  congr 1
  push_cast
  ring



/-- C7: for equal-width bins `binStarts[i] = i*w + b0` (`n ≥ 2`, `w > 0`)
with `sum(TransProbs) = 1`, and unit variates `us`, `js`, `MCMRnd` returns
one sample per draw; each sample is `binStarts[i] + jitter` where `i` is the
smallest index with `u ≤ cdf[i]` for that draw's `u` and the jitter
`w * j` lies in `[0, w)`; hence every sample lies in
`[binStarts[0], binStarts[n-1] + w)`. -/
theorem mcmRnd_samples_spec (n : ℕ) (b0 w : ℚ) (tp us js : List ℚ)
    (hn : 2 ≤ n) (hw : 0 < w) (hlen : tp.length = n) (hsum : tp.sum = 1)
    (hjs : js.length = us.length)
    (hu : ∀ u ∈ us, 0 ≤ u ∧ u < 1) (hj : ∀ j ∈ js, 0 ≤ j ∧ j < 1) :
    ∃ samples, MCMRnd (binStartsList n b0 w) tp us js = some samples ∧
      samples.length = us.length ∧
      List.Forall₂ (fun (q : ℚ × ℚ) s => ∃ i c, i < n ∧
          (cdfList tp)[i]? = some c ∧ q.1 ≤ c ∧
          (∀ m c', m < i → (cdfList tp)[m]? = some c' → ¬ q.1 ≤ c') ∧
          s = ((i : ℚ) * w + b0) + w * q.2)
        (us.zip js) samples ∧
      ∀ s ∈ samples, b0 ≤ s ∧ s < (((n : ℚ) - 1) * w + b0) + w := by
  have htp_ne : tp ≠ [] := by
    intro h; rw [h] at hlen; simp at hlen; omega
  -- every draw succeeds: the last CDF entry is the total mass 1
  have hdraw : ∀ q ∈ us.zip js, ∃ s,
      drawSample (binStartsList n b0 w) (cdfList tp) w q.1 q.2 = some s := by
    intro q hq
    have hqu : q.1 ∈ us := (List.of_mem_zip hq).1
    have hu1 : q.1 ≤ 1 := le_of_lt (hu q.1 hqu).2
    have hlast : (cdfList tp)[tp.length - 1]? = some 1 := by
      rw [cdfList_last tp htp_ne, hsum]
    have hne : firstIdxLE q.1 (cdfList tp) ≠ none := by
      intro hnone
      exact (firstIdxLE_eq_none q.1 _).mp hnone 1 (List.getElem?_mem hlast) hu1
    obtain ⟨k, hk⟩ := Option.ne_none_iff_exists'.mp hne
    obtain ⟨⟨c, hc, _⟩, _⟩ := firstIdxLE_spec q.1 _ k hk
    have hklt : k < n := by
      have := (List.getElem?_eq_some.mp hc).1
      rwa [cdfList_length, hlen] at this
    refine ⟨(k : ℚ) * w + b0 + w * q.2, ?_⟩
    rw [drawSample, hk]
    dsimp only
    rw [binStartsList_getElem? n b0 w k hklt]
    rfl
  obtain ⟨ss, hloop, hall⟩ := sampleLoop_some (binStartsList n b0 w) (cdfList tp) w (us.zip js) hdraw
  have hssl : ss.length = us.length := by
    have h1 := hall.length_eq
    rw [List.length_zip, hjs, min_self] at h1
    omega
  -- convert each successful draw into the smallest-index description
  have hinv : ∀ (q : ℚ × ℚ) (s : ℚ),
      drawSample (binStartsList n b0 w) (cdfList tp) w q.1 q.2 = some s →
      ∃ i c, i < n ∧ (cdfList tp)[i]? = some c ∧ q.1 ≤ c ∧
        (∀ m c', m < i → (cdfList tp)[m]? = some c' → ¬ q.1 ≤ c') ∧
        s = ((i : ℚ) * w + b0) + w * q.2 := by
    intro q s hs
    rw [drawSample] at hs
    cases hfi : firstIdxLE q.1 (cdfList tp) with
    | none =>
      rw [hfi] at hs
      dsimp only at hs
      exact absurd hs (by simp)
    | some k =>
      rw [hfi] at hs
      dsimp only at hs
      obtain ⟨⟨c, hc, hqc⟩, hmin⟩ := firstIdxLE_spec q.1 _ k hfi
      have hklt : k < n := by
        have := (List.getElem?_eq_some.mp hc).1
        rwa [cdfList_length, hlen] at this
      rw [binStartsList_getElem? n b0 w k hklt] at hs
      simp only [Option.map_some'] at hs
      injection hs with hs
      exact ⟨k, c, hklt, hc, hqc, hmin, hs.symm⟩
  refine ⟨ss, ?_, hssl, hall.imp hinv, ?_⟩
  · rw [mcmRnd_eq_sampleLoop n hn b0 w tp us js, hloop]
  · intro s hs
    obtain ⟨q, hq, hds⟩ := forall₂_mem_right hall hs
    obtain ⟨i, c, hilt, _, _, _, hval⟩ := hinv q s hds
    have hqj : q.2 ∈ js := (List.of_mem_zip hq).2
    obtain ⟨hj0, hj1⟩ := hj q.2 hqj
    have hi1 : (i : ℚ) ≤ (n : ℚ) - 1 := by
      have : i ≤ n - 1 := by omega
      have hcast : ((i : ℕ) : ℚ) ≤ ((n - 1 : ℕ) : ℚ) := by exact_mod_cast this
      rwa [Nat.cast_sub (by omega : 1 ≤ n), Nat.cast_one] at hcast
    constructor
    · rw [hval]
      have h1 : 0 ≤ (i : ℚ) * w := mul_nonneg (by positivity) (le_of_lt hw)
      have h2 : 0 ≤ w * q.2 := mul_nonneg (le_of_lt hw) hj0
      linarith
    · rw [hval]
      have h1 : (i : ℚ) * w ≤ ((n : ℚ) - 1) * w := by
        apply mul_le_mul_of_nonneg_right hi1 (le_of_lt hw)
      have h2 : w * q.2 < w := by
        calc w * q.2 < w * 1 := by apply mul_lt_mul_of_pos_left hj1 hw
        _ = w := mul_one w
      linarith



/-- Witness for C7 at `n = 2`, `binStarts = [0, 1/2]`,
`transProbs = [1/2, 1/2]`, one draw with `u = 1/4`, `j = 1/2`. -/
theorem mcmRnd_samples_spec_witness :
    ∃ samples, MCMRnd (binStartsList 2 0 (1/2)) [1/2, 1/2] [1/4] [1/2] = some samples ∧
      samples.length = ([(1 : ℚ)/4] : List ℚ).length ∧
      List.Forall₂ (fun (q : ℚ × ℚ) s => ∃ (i : ℕ) (c : ℚ), i < 2 ∧
          (cdfList [1/2, 1/2])[i]? = some c ∧ q.1 ≤ c ∧
          (∀ (m : ℕ) (c' : ℚ), m < i → (cdfList [1/2, 1/2])[m]? = some c' → ¬ q.1 ≤ c') ∧
          s = ((i : ℚ) * (1/2) + 0) + (1/2) * q.2)
        (([(1 : ℚ)/4] : List ℚ).zip ([(1 : ℚ)/2] : List ℚ)) samples ∧
      ∀ s ∈ samples, (0 : ℚ) ≤ s ∧ s < (((2 : ℕ) : ℚ) - 1) * (1/2) + 0 + 1/2 :=
  mcmRnd_samples_spec 2 0 (1/2) [1/2, 1/2] [1/4] [1/2] (by norm_num) (by norm_num)
    (by norm_num) (by norm_num) (by norm_num)
    (by intro u hu; rw [List.mem_singleton] at hu; subst hu; norm_num)
    (by intro j hj; rw [List.mem_singleton] at hj; subst hj; norm_num)



lemma rat_floor_eq_int_floor (q : ℚ) : q.floor = ⌊q⌋ := rfl

lemma mcmFit_pos (x : ℚ) (xs : List ℚ) (n : ℕ) (hn : 1 ≤ n)
    (hab : listMin x xs < listMax x xs) (steps : ℕ) :
    MCMFit (x :: xs) n steps = some
      ((normalizeRows (countMatrix (x :: xs) (listMin x xs)
        ((listMax x xs - listMin x xs) / (n : ℚ)) n)) ^ steps) := by
  have hw : (listMax x xs - listMin x xs) / (n : ℚ) ≠ 0 := by
    apply div_ne_zero (by linarith)
    exact_mod_cast (by omega : n ≠ 0)
  rw [MCMFit]
  rw [if_neg (by tauto)]

/-- C8: for valid data (`min < max`) and `n ≥ 1`, `MCMFit` at `steps = 2` is
the ordinary matrix product of `MCMFit` at `steps = 1` with itself, and
`steps = 1` returns the normalized count matrix unchanged. -/
theorem mcmFit_power_consistency (x : ℚ) (xs : List ℚ) (n : ℕ)
    (hn : 1 ≤ n) (hab : listMin x xs < listMax x xs) :
    ∃ P, MCMFit (x :: xs) n 1 = some P ∧
      MCMFit (x :: xs) n 2 = some (P * P) ∧
      P = normalizeRows (countMatrix (x :: xs) (listMin x xs)
            ((listMax x xs - listMin x xs) / (n : ℚ)) n) := by
  refine ⟨_, ?_, ?_, rfl⟩
  · rw [mcmFit_pos x xs n hn hab 1, pow_one]
  · rw [mcmFit_pos x xs n hn hab 2, pow_two]

unseal Rat.mul Rat.inv Rat.add Rat.sub in
/-- Witness for C8 at `data = [0, 1]`, `n = 1`. -/
theorem mcmFit_power_consistency_witness :
    ∃ P, MCMFit [(0 : ℚ), 1] 1 1 = some P ∧
      MCMFit [(0 : ℚ), 1] 1 2 = some (P * P) ∧
      P = normalizeRows (countMatrix [(0 : ℚ), 1] (listMin 0 [1])
            ((listMax 0 [1] - listMin 0 [1]) / ((1 : ℕ) : ℚ)) 1) :=
  mcmFit_power_consistency 0 [1] 1 (by omega) (by decide)

/-- C9: for n ≥ 1 and a data sequence with `min < max`, the state index
assigned by `MCMFit` to each observation is below `n` (nonnegative already as
a natural number, and the floor underlying it is nonnegative as an integer,
so every count-matrix access is in bounds), and the maximum observation maps
to state `n - 1` via the top clamp. -/
theorem stateOf_bounds (x : ℚ) (xs : List ℚ) (n : ℕ) (hn : 1 ≤ n)
    (hab : listMin x xs < listMax x xs) :
    (∀ v ∈ x :: xs,
      stateOf (listMin x xs) ((listMax x xs - listMin x xs) / (n : ℚ)) n v < n ∧
      0 ≤ ((v - listMin x xs) / ((listMax x xs - listMin x xs) / (n : ℚ))).floor) ∧
    stateOf (listMin x xs) ((listMax x xs - listMin x xs) / (n : ℚ)) n (listMax x xs) = n - 1 := by
  have hn0 : (0 : ℚ) < (n : ℚ) := by exact_mod_cast Nat.lt_of_lt_of_le Nat.zero_lt_one hn
  have hwpos : 0 < (listMax x xs - listMin x xs) / (n : ℚ) :=
    div_pos (by linarith) hn0
  constructor
  · intro v hv
    constructor
    · exact lt_of_le_of_lt (min_le_right _ _) (by omega)
    · rw [rat_floor_eq_int_floor]
      apply Int.floor_nonneg.mpr
      apply div_nonneg _ (le_of_lt hwpos)
      have hle : listMin x xs ≤ v := by
        rcases List.mem_cons.mp hv with rfl | hv
        · exact (listMin_le xs v).1
        · exact (listMin_le xs x).2 v hv
      linarith
  · rw [stateOf]
    have hba : listMax x xs - listMin x xs ≠ 0 := by linarith
    have hnne : (n : ℚ) ≠ 0 := ne_of_gt hn0
    have hdiv : (listMax x xs - listMin x xs) /
        ((listMax x xs - listMin x xs) / (n : ℚ)) = (n : ℚ) := by
      field_simp
    rw [hdiv, rat_floor_eq_int_floor, Int.floor_natCast]
    simp only [Int.toNat_natCast]
    omega

unseal Rat.mul Rat.inv Rat.add Rat.sub in
/-- Witness for C9 at `data = [0, 1]`, `n = 2`. -/
theorem stateOf_bounds_witness :
    (∀ v ∈ [(0 : ℚ), 1],
      stateOf (listMin 0 [1]) ((listMax 0 [1] - listMin 0 [1]) / ((2 : ℕ) : ℚ)) 2 v < 2 ∧
      0 ≤ ((v - listMin 0 [1]) / ((listMax 0 [1] - listMin 0 [1]) / ((2 : ℕ) : ℚ))).floor) ∧
    stateOf (listMin 0 [1]) ((listMax 0 [1] - listMin 0 [1]) / ((2 : ℕ) : ℚ)) 2 (listMax 0 [1]) = 2 - 1 :=
  stateOf_bounds 0 [1] 2 (by omega) (by decide)

/-- C3 (amended): `MCMFit` performs no boundary validation of degenerate
inputs.  A single-observation sequence silently yields the all-zero matrix
(partial output, no error signal), and a degenerate range (`a == b`) with at
least two observations makes the call fail only through the NaN-poisoned
index access inside the counting loop. -/
theorem mcmFit_degenerate_behavior :
    (∀ (q : ℚ) (n steps : ℕ), 1 ≤ steps → MCMFit [q] n steps = some 0) ∧
    (∀ (x : ℚ) (xs : List ℚ) (n steps : ℕ), xs ≠ [] →
      listMin x xs = listMax x xs → MCMFit (x :: xs) n steps = none) := by
  constructor
  · intro q n steps hsteps
    rw [MCMFit]
    rw [if_neg (by simp)]
    have hcount : countMatrix [q] (listMin q []) ((listMax q [] - listMin q []) / (n : ℚ)) n = 0 := by
      ext i j
      simp [countMatrix, transPairs]
    rw [hcount]
    have hnorm : normalizeRows (0 : Matrix (Fin n) (Fin n) ℚ) = 0 := by
      ext i j
      simp [normalizeRows]
    rw [hnorm, zero_pow (by omega : steps ≠ 0)]
  · intro x xs n steps hxs hab
    rw [MCMFit]
    rw [if_pos ⟨by rw [hab]; simp, hxs⟩]

unseal Rat.mul Rat.inv Rat.add Rat.sub in
/-- Witness for the amended C3: one observation gives the zero matrix with
no error; two equal observations make the call fail. -/
theorem mcmFit_degenerate_behavior_witness :
    MCMFit [(5 : ℚ)] 3 2 = some 0 ∧ MCMFit [(1 : ℚ), 1] 4 1 = none :=
  ⟨mcmFit_degenerate_behavior.1 5 3 2 (by omega),
   mcmFit_degenerate_behavior.2 1 [1] 4 1 (by simp) (by decide)⟩



lemma countP_fiber (l : List (ℚ × ℚ)) (a w : ℚ) (n : ℕ) (hn : 1 ≤ n) (i : Fin n) :
    ∑ j : Fin n, l.countP
        (fun q => decide (stateOf a w n q.1 = i.val ∧ stateOf a w n q.2 = j.val)) =
      l.countP (fun q => decide (stateOf a w n q.1 = i.val)) := by
  induction l with
  | nil => simp
  | cons q l ih =>
    simp only [List.countP_cons]
    rw [Finset.sum_add_distrib, ih]
    congr 1
    simp only [decide_eq_true_eq]
    by_cases h1 : stateOf a w n q.1 = i.val
    · have hs2 : stateOf a w n q.2 < n :=
        lt_of_le_of_lt (min_le_right _ _) (by omega)
      rw [if_pos h1]
      rw [Finset.sum_eq_single (⟨stateOf a w n q.2, hs2⟩ : Fin n)]
      · rw [if_pos ⟨h1, rfl⟩]
      · intro b _ hb
        rw [if_neg]
        intro hcon
        exact hb (Fin.ext hcon.2.symm)
      · intro habs
        exact absurd (Finset.mem_univ _) habs
    · rw [if_neg h1]
      apply Finset.sum_eq_zero
      intro b _
      rw [if_neg]
      intro hcon
      exact h1 hcon.1

lemma countMatrix_nonneg (data : List ℚ) (a w : ℚ) (n : ℕ) (i j : Fin n) :
    0 ≤ countMatrix data a w n i j := by
  simp only [countMatrix, Matrix.of_apply]
  exact Nat.cast_nonneg _

lemma countMatrix_rowsum (data : List ℚ) (a w : ℚ) (n : ℕ) (hn : 1 ≤ n) (i : Fin n) :
    ∑ j, countMatrix data a w n i j =
      (((transPairs data).countP fun q => decide (stateOf a w n q.1 = i.val) : ℕ) : ℚ) := by
  simp only [countMatrix, Matrix.of_apply]
  rw [← Nat.cast_sum]
  exact congrArg Nat.cast (countP_fiber (transPairs data) a w n hn i)

lemma normalizeRows_rowsum_one {n : ℕ} (m : Matrix (Fin n) (Fin n) ℚ) (i : Fin n)
    (h : ∑ k, m i k ≠ 0) : ∑ j, normalizeRows m i j = 1 := by
  simp only [normalizeRows, Matrix.of_apply, if_neg h]
  rw [← Finset.sum_div, div_self h]

lemma normalizeRows_zero_row {n : ℕ} (m : Matrix (Fin n) (Fin n) ℚ) (i : Fin n)
    (hnn : ∀ j, 0 ≤ m i j) (h : ∑ k, m i k = 0) (j : Fin n) :
    normalizeRows m i j = 0 := by
  have hz : m i j = 0 :=
    (Finset.sum_eq_zero_iff_of_nonneg fun k _ => hnn k).mp h j (Finset.mem_univ j)
  simp [normalizeRows, hz]

/-- C1 (amended): whenever `MCMFit` at `steps = 1` returns a matrix, each of
its rows sums to 1 or is all-zero, a row is all-zero exactly when its state
has no observed outgoing transition (never renormalized), and consequently
the `TransProbs` row returned by `MCMForecast` from such a matrix sums to 0
or 1.  (At `steps ≥ 2` this fails; see the counterexample.) -/
theorem mcmFit_one_step_rows (x : ℚ) (xs : List ℚ) (n : ℕ)
    (P : Matrix (Fin n) (Fin n) ℚ) (hxs : xs ≠ [])
    (hfit : MCMFit (x :: xs) n 1 = some P) :
    (∀ i, (∑ j, P i j = 1) ∨ (∀ j, P i j = 0)) ∧
    (∀ i : Fin n, (∀ j, P i j = 0) ↔
      (transPairs (x :: xs)).countP (fun q =>
        decide (stateOf (listMin x xs)
          ((listMax x xs - listMin x xs) / (n : ℚ)) n q.1 = i.val)) = 0) ∧
    (∀ minV maxV obs bs tp, MCMForecast n P minV maxV obs = .ok (bs, tp) →
      tp.sum = 0 ∨ tp.sum = 1) := by
  rw [MCMFit] at hfit
  by_cases hcond : (listMax x xs - listMin x xs) / (n : ℚ) = 0 ∧ xs ≠ []
  · rw [if_pos hcond] at hfit
    exact absurd hfit (by simp)
  · rw [if_neg hcond] at hfit
    have hw : (listMax x xs - listMin x xs) / (n : ℚ) ≠ 0 := fun h => hcond ⟨h, hxs⟩
    have hn : 1 ≤ n := by
      by_contra h
      apply hw
      have hzero : n = 0 := by omega
      rw [hzero]
      simp
    injection hfit with hfit
    rw [pow_one] at hfit
    subst hfit
    set a := listMin x xs with ha
    set b := listMax x xs with hb
    set w := (b - a) / (n : ℚ) with hwdef
    set C := countMatrix (x :: xs) a w n with hC
    have hrows : ∀ i, (∑ j, normalizeRows C i j = 1) ∨
        (∀ j, normalizeRows C i j = 0) := by
      intro i
      by_cases hrow : ∑ k, C i k = 0
      · exact Or.inr fun j =>
          normalizeRows_zero_row C i (fun k => countMatrix_nonneg _ _ _ _ _ _) hrow j
      · exact Or.inl (normalizeRows_rowsum_one C i hrow)
    refine ⟨hrows, ?_, ?_⟩
    · intro i
      have hcast : ∑ k, C i k =
          (((transPairs (x :: xs)).countP fun q =>
            decide (stateOf a w n q.1 = i.val) : ℕ) : ℚ) :=
        countMatrix_rowsum (x :: xs) a w n hn i
      constructor
      · intro hall
        by_contra hne
        have hrow : ∑ k, C i k ≠ 0 := by
          rw [hcast]
          exact_mod_cast hne
        have h1 := normalizeRows_rowsum_one C i hrow
        rw [Finset.sum_congr rfl fun j _ => hall j] at h1
        simp at h1
      · intro hzero j
        apply normalizeRows_zero_row C i (fun k => countMatrix_nonneg _ _ _ _ _ _) _ j
        rw [hcast, hzero]
        simp
    · intro minV maxV obs bs tp h
      obtain ⟨_, j, htp⟩ := mcmForecast_ok_inv n _ minV maxV obs bs tp h
      rw [htp, finRange_map_sum]
      rcases hrows j with h1 | h2
      · exact Or.inr h1
      · exact Or.inl (Finset.sum_eq_zero fun k _ => h2 k)



unseal Rat.mul Rat.inv Rat.add Rat.sub in
/-- C4: end-to-end example: for `data = [0.1, 0.2, 0.2, 0.3, 0.1, 0.2]`,
`n = 2`, `steps = 1`, `MCMFit` computes range `[0.1, 0.3]`, bin width `0.1`,
clamped states `[0,1,1,1,0,1]`, raw counts `[[0,2],[1,2]]`, and returns
`[[0,1],[1/3,2/3]]`. -/
theorem mcmFit_end_to_end_example :
    listMin (1/10) [2/10, 2/10, 3/10, 1/10, 2/10] = 1/10 ∧
    listMax (1/10) [2/10, 2/10, 3/10, 1/10, 2/10] = 3/10 ∧
    ((3 : ℚ)/10 - 1/10) / ((2 : ℕ) : ℚ) = 1/10 ∧
    ([1/10, 2/10, 2/10, 3/10, 1/10, 2/10] : List ℚ).map (stateOf (1/10) (1/10) 2) =
      [0, 1, 1, 1, 0, 1] ∧
    countMatrix [1/10, 2/10, 2/10, 3/10, 1/10, 2/10] (1/10) (1/10) 2 = !![0, 2; 1, 2] ∧
    MCMFit [1/10, 2/10, 2/10, 3/10, 1/10, 2/10] 2 1 = some !![0, 1; 1/3, 2/3] :=
  ⟨by decide, by decide, by decide, by decide, by decide,
   eq_some_of_isSome_getD _ 0 _ (by decide) (by decide)⟩

unseal Rat.mul Rat.inv Rat.add Rat.sub in
/-- C1 counterexample: the claim quantifies over every `steps ≥ 1`, but for
`data = [0, 0, 1]`, `n = 2`, `steps = 2` the returned matrix is
`[[1/4,1/4],[0,0]]`: its first row sums to `1/2`, neither 1 nor all-zero. -/
theorem mcmFit_power_row_counterexample :
    MCMFit [0, 0, 1] 2 2 = some !![1/4, 1/4; 0, 0] ∧
    ¬ ((∑ j, (!![(1 : ℚ)/4, 1/4; 0, 0]) 0 j = 1) ∨
       (∀ j, (!![(1 : ℚ)/4, 1/4; 0, 0]) 0 j = 0)) :=
  ⟨eq_some_of_isSome_getD _ 0 _ (by decide) (by decide), by decide⟩

unseal Rat.mul Rat.inv Rat.add Rat.sub in
/-- C3 counterexample: a single-observation sequence is degenerate (fewer
than 2 observations, min equals max), yet `MCMFit` reports no error at the
call boundary: it silently returns the all-zero matrix. -/
theorem mcmFit_single_obs_counterexample :
    MCMFit [(1 : ℚ)] 2 1 = some (0 : Matrix (Fin 2) (Fin 2) ℚ) :=
  eq_some_of_isSome_getD _ 0 _ (by decide) (by decide)

unseal Rat.mul Rat.inv Rat.add Rat.sub in
/-- C2: at the failing input `binStarts = [0, 1/2]`,
`transProbs = [1/2, 1/4]` (CDF `[1/2, 3/4]`), the variate `u = 7/8` exceeds
every cumulative value; the draw is not resolved to the last bin — the call
fails with the `IndexError` of `np.where(u <= probsCDF)[0][0]` on an empty
match (modelled as `none`). -/
theorem mcmRnd_u_above_cdf_fails :
    cdfList [1/2, 1/4] = [1/2, 3/4] ∧
    ¬ ((7 : ℚ)/8 ≤ 1/2) ∧ ¬ ((7 : ℚ)/8 ≤ 3/4) ∧
    MCMRnd [0, 1/2] [1/2, 1/4] [7/8] [0] = none :=
  ⟨by decide, by decide, by decide, by decide⟩

unseal Rat.mul Rat.inv Rat.add Rat.sub in
/-- Witness for the amended C1 at `data = [0, 0, 1]`, `n = 2`, whose fitted
one-step matrix is `[[1/2,1/2],[0,0]]`. -/
theorem mcmFit_one_step_rows_witness :
    (∀ i : Fin 2, (∑ j, (!![(1 : ℚ)/2, 1/2; 0, 0]) i j = 1) ∨
      (∀ j, (!![(1 : ℚ)/2, 1/2; 0, 0]) i j = 0)) ∧
    (∀ i : Fin 2, (∀ j, (!![(1 : ℚ)/2, 1/2; 0, 0]) i j = 0) ↔
      (transPairs [0, 0, 1]).countP (fun q =>
        decide (stateOf (listMin 0 [0, 1])
          ((listMax 0 [0, 1] - listMin 0 [0, 1]) / ((2 : ℕ) : ℚ)) 2 q.1 = i.val)) = 0) ∧
    (∀ minV maxV obs bs tp,
      MCMForecast 2 !![(1 : ℚ)/2, 1/2; 0, 0] minV maxV obs = .ok (bs, tp) →
      tp.sum = 0 ∨ tp.sum = 1) :=
  mcmFit_one_step_rows 0 [0, 1] 2 !![(1 : ℚ)/2, 1/2; 0, 0] (by simp)
    (eq_some_of_isSome_getD _ 0 _ (by decide) (by decide))

end MCM
